import Mathlib

/-!
Verification of the `search-in-js` repository.

The development shallowly embeds the two source files:
* `src/search-recursively.js` — line matcher (`createSearchRegex`,
  `matchesSearchCriteria`), file filter (`shouldIncludeFile`), directory
  filter (`shouldSkipDirectory`), per-file scan (`searchInFile`) and the
  recursive traversal (`traverseDirectory` / `searchRecursively`);
* `src/unnamed/part_000` — the aggregator (`groupResultsByPattern`), the
  report formatter (`formatSimpleResults`) and the driver (`performSearch`).

Strings are modelled as `List Char`.  JavaScript regular expressions appear
in the source only in two shapes: the matcher builds them from a phrase with
every metacharacter escaped (hence: literal substring search, optionally
wrapped in word boundaries), while the aggregator passes the raw phrase to
`new RegExp`.  The matcher side is therefore modelled exactly; the
aggregator side is modelled on the fragment of regexes the raw phrases can
produce without metacharacters other than `.` (a token list of literal
characters and the any-character dot).  Case-insensitive matching (`i` flag)
is modelled by lowercasing, the reading for ASCII data.
-/

namespace SearchJs

/-- A search pattern, the normalised object form of the source's
`searchPattern` (`{include, exclude, wholeWord, caseSensitive}`); a bare
string phrase corresponds to `⟨phrase, [], false, false⟩` after the
destructuring defaults of `searchRecursively` and the `||`-free field reads
of `groupResultsByPattern`.  The JS field `include` is a Lean keyword and is
rendered `incl`. -/
structure SPattern where
  incl : List Char
  exclude : List (List Char)
  wholeWord : Bool
  caseSensitive : Bool
  deriving Repr, DecidableEq

/-- One matching line of a file: trimmed content and 1-based line number. -/
structure MatchLine where
  content : List Char
  lineNumber : Nat
  deriving Repr, DecidableEq

/-- A per-file result as pushed by `searchInFile`: the file path and its
non-empty list of matching lines. -/
structure FileResult where
  fileName : List Char
  lines : List MatchLine
  deriving Repr, DecidableEq

/-- Word characters for the JS `\b` assertion: alphanumeric or underscore. -/
def isWordChar (c : Char) : Bool :=
  c.isAlphanum || c == '_'

/-- Is the character at position `i` of `l` a word character (`false` when
out of range)?  Positions between characters are indexed `0 .. l.length`. -/
def wordAt (l : List Char) (i : Nat) : Bool :=
  match l.get? i with
  | some c => isWordChar c
  | none => false

/-- The JS `\b` assertion at position `i` of `l`: exactly one of the
neighbouring characters is a word character. -/
def boundaryAt (l : List Char) (i : Nat) : Bool :=
  (match i with
   | 0 => false
   | j + 1 => wordAt l j) != wordAt l i

/-- Case folding used to model the regex `i` flag: identity when
`caseSensitive`, lowercasing otherwise. -/
def foldCase (caseSensitive : Bool) (s : List Char) : List Char :=
  if caseSensitive then s else s.map Char.toLower

/-- Does the literal token list `p` occur in `l` starting at position `i`? -/
def occursAt (l p : List Char) (i : Nat) : Bool :=
  (l.drop i).take p.length == p

/-- Model of `createSearchRegex(pattern, isWholeWord).test(line)` from
`src/search-recursively.js` lines 39–46: the phrase has every regex
metacharacter escaped (`pattern.replace(/[.*+?^${}()|[\]\\]/g, '\\$&')`),
so the regex is the literal phrase, wrapped in `\b … \b` when `isWholeWord`,
compiled with flag `i` unless `caseSensitive`.  `test` succeeds iff a match
exists at some position. -/
def createSearchRegexTest (caseSensitive wholeWord : Bool)
    (pat line : List Char) : Bool :=
  let p := foldCase caseSensitive pat
  let l := foldCase caseSensitive line
  (List.range (l.length + 1)).any fun i =>
    occursAt l p i &&
      (!wholeWord || (boundaryAt l i && boundaryAt l (i + p.length)))

/-- Model of `matchesSearchCriteria(line)` from `src/search-recursively.js`
lines 48–59: the include regex must match, and no exclude phrase's regex
(built with the same whole-word and case flags) may match. -/
def matchesSearchCriteria (p : SPattern) (line : List Char) : Bool :=
  createSearchRegexTest p.caseSensitive p.wholeWord p.incl line &&
    !(p.exclude.any fun e =>
        createSearchRegexTest p.caseSensitive p.wholeWord e line)

/-- Spec-side case-insensitive substring containment (used to state C1). -/
def containsCI (line phrase : List Char) : Prop :=
  (phrase.map Char.toLower) <:+: (line.map Char.toLower)

instance (line phrase : List Char) : Decidable (containsCI line phrase) := by
  unfold containsCI
  infer_instance

/-- Occurrence at some position is exactly infix containment. -/
theorem any_occursAt_iff_isInfix (l p : List Char) :
    ((List.range (l.length + 1)).any fun i => occursAt l p i) = true ↔
      p <:+: l := by
  constructor
  · intro h
    rcases List.any_eq_true.mp h with ⟨i, _, hocc⟩
    have htake : (l.drop i).take p.length = p := by
      simpa [occursAt] using hocc
    refine ⟨l.take i, (l.drop i).drop p.length, ?_⟩
    calc l.take i ++ p ++ (l.drop i).drop p.length
        = l.take i ++ ((l.drop i).take p.length ++ (l.drop i).drop p.length) := by
          rw [htake, List.append_assoc]
      _ = l.take i ++ l.drop i := by rw [List.take_append_drop]
      _ = l := List.take_append_drop i l
  · rintro ⟨s, t, rfl⟩
    refine List.any_eq_true.mpr ⟨s.length, ?_, ?_⟩
    · refine List.mem_range.mpr ?_
      have : (s ++ p ++ t).length = s.length + p.length + t.length := by
        simp [List.length_append]
        omega
      omega
    · have hdrop : (s ++ p ++ t).drop s.length = p ++ t := by
        rw [List.append_assoc]
        exact List.drop_left s (p ++ t)
      simp [occursAt, hdrop, List.take_left]

/-- With `wholeWord = false` the matcher's regex test is exactly substring
containment of the case-folded phrase in the case-folded line. -/
theorem createSearchRegexTest_false_iff (cs : Bool) (p l : List Char) :
    createSearchRegexTest cs false p l = true ↔
      foldCase cs p <:+: foldCase cs l := by
  rw [← any_occursAt_iff_isInfix (foldCase cs l) (foldCase cs p)]
  unfold createSearchRegexTest
  simp

/-- Helper form of C1: the full matcher with both flags off is
case-insensitive substring inclusion plus exclusion. -/
theorem matchesSearchCriteria_plain_iff (inc : List Char)
    (exc : List (List Char)) (line : List Char) :
    matchesSearchCriteria ⟨inc, exc, false, false⟩ line = true ↔
      containsCI line inc ∧ ∀ e ∈ exc, ¬ containsCI line e := by
  unfold matchesSearchCriteria
  simp only [Bool.and_eq_true, Bool.not_eq_true', List.any_eq_false]
  constructor
  · rintro ⟨h1, h2⟩
    refine ⟨?_, fun e he hce => ?_⟩
    · exact (createSearchRegexTest_false_iff false inc line).mp h1
    · exact h2 e he ((createSearchRegexTest_false_iff false e line).mpr hce)
  · rintro ⟨h1, h2⟩
    refine ⟨(createSearchRegexTest_false_iff false inc line).mpr h1, fun e he => ?_⟩
    by_contra hne
    have : createSearchRegexTest false false e line = true := by
      revert hne
      cases createSearchRegexTest false false e line <;> simp
    exact h2 e he ((createSearchRegexTest_false_iff false e line).mp this)

/-- C1: for every line `L` and pattern `P` with `wholeWord = false` and
`caseSensitive = false`, `matchesSearchCriteria` returns true iff `L`
contains `P.include` as a case-insensitive substring and contains none of
the phrases of `P.exclude` as a case-insensitive substring (the escaping in
`createSearchRegex` makes every phrase a literal). -/
theorem C1_plain_matcher_iff_substring (inc : List Char)
    (exc : List (List Char)) (line : List Char) :
    matchesSearchCriteria ⟨inc, exc, false, false⟩ line = true ↔
      containsCI line inc ∧ ∀ e ∈ exc, ¬ containsCI line e :=
  matchesSearchCriteria_plain_iff inc exc line

/-- C6: the whole-word and case-sensitivity flags behave as specified on
the spec's five examples, and a whole-word occurrence is one whose two ends
are word boundaries in the sense of `boundaryAt` (not adjacent to an
alphanumeric-or-underscore character). -/
theorem C6_wholeWord_caseSensitive_examples :
    matchesSearchCriteria ⟨"cat".toList, [], false, false⟩ "cat".toList = true
    ∧ matchesSearchCriteria ⟨"cat".toList, [], true, false⟩ "category".toList = false
    ∧ matchesSearchCriteria ⟨"cat".toList, [], false, false⟩ "category".toList = true
    ∧ matchesSearchCriteria ⟨"cat".toList, [], false, true⟩ "Cat".toList = false
    ∧ matchesSearchCriteria ⟨"cat".toList, [], false, false⟩ "Cat".toList = true
    ∧ ∀ cs : Bool, ∀ pat line : List Char,
        createSearchRegexTest cs true pat line =
          ((List.range ((foldCase cs line).length + 1)).any fun i =>
            occursAt (foldCase cs line) (foldCase cs pat) i &&
              (boundaryAt (foldCase cs line) i &&
                boundaryAt (foldCase cs line) (i + (foldCase cs pat).length))) := by
  refine ⟨by decide, by decide, by decide, by decide, by decide, ?_⟩
  intro cs pat line
  unfold createSearchRegexTest
  simp

/-- C9 counterexample: the empty include phrase is neither rejected nor
treated as matching nothing — on the line `"x"` the matcher returns true
(the escaped empty phrase compiles to an empty regex, which matches every
line). -/
theorem C9_counterexample_empty_include_matches :
    matchesSearchCriteria ⟨[], [], false, false⟩ "x".toList = true := by
  decide

/-- C9 amended: an empty include phrase is not rejected; with
`wholeWord = false` it matches every line (subject to the exclude phrases),
and the run does not crash (the matcher is a total function). -/
theorem C9_empty_include_matches_every_line (exc : List (List Char))
    (line : List Char) :
    matchesSearchCriteria ⟨[], exc, false, false⟩ line =
      decide (∀ e ∈ exc, ¬ containsCI line e) := by
  have hempty : containsCI line [] := ⟨[], line.map Char.toLower, by simp⟩
  by_cases h : ∀ e ∈ exc, ¬ containsCI line e
  · rw [(matchesSearchCriteria_plain_iff [] exc line).mpr ⟨hempty, h⟩]
    exact (decide_eq_true h).symm
  · have hf : ¬ matchesSearchCriteria ⟨[], exc, false, false⟩ line = true := by
      intro hc
      exact h ((matchesSearchCriteria_plain_iff [] exc line).mp hc).2
    rw [Bool.eq_false_iff.mpr hf]
    exact (decide_eq_false h).symm

/-- The last path segment (after the final `/`), as Node's `path.basename`
computes it for POSIX paths without trailing separators. -/
def pathBasename (p : List Char) : List Char :=
  (p.reverse.takeWhile (fun c => c != '/')).reverse

/-- Model of Node's `path.extname`: the part of the basename from its last
`.` onward, empty when the basename has no `.` or only a leading one. -/
def pathExtname (p : List Char) : List Char :=
  let b := pathBasename p
  let afterDot := b.reverse.takeWhile (fun c => c != '.')
  if afterDot.length = b.length then []
  else if afterDot.length + 1 = b.length then []
  else b.drop (b.length - 1 - afterDot.length)

/-- Model of `shouldIncludeFile(fileName)` from `src/search-recursively.js`
lines 61–72.  Note two facts visible in the source and preserved here:
the argument is the full `filePath` of the caller `searchInFile`, and in
the `*`-branches only the file name is lowercased, never the filter
remainder. -/
def shouldIncludeFile (includeFiles : List (List Char))
    (fileName : List Char) : Bool :=
  if includeFiles.length = 0 then true
  else
    let ext := (pathExtname fileName).map Char.toLower
    includeFiles.any fun pat =>
      if pat.head? == some '*' then
        pat.tail.isSuffixOf (fileName.map Char.toLower)
      else if pat.getLast? == some '*' then
        pat.dropLast.isPrefixOf (fileName.map Char.toLower)
      else ext == pat.map Char.toLower

/-- The condition `shouldIncludeFile` actually tests for one filter entry,
written spec-side with `IsPrefix`/`IsSuffix`/extension equality. -/
def filterAccepts (pat filePath : List Char) : Prop :=
  if pat.head? = some '*' then pat.tail <:+ filePath.map Char.toLower
  else if pat.getLast? = some '*' then pat.dropLast <+: filePath.map Char.toLower
  else (pathExtname filePath).map Char.toLower = pat.map Char.toLower

instance (pat filePath : List Char) : Decidable (filterAccepts pat filePath) := by
  unfold filterAccepts
  infer_instance

/-- C4 counterexample: the claim's filter semantics fails on the code in
two ways.  With filter `test*`, the file `dir/testfile.js` — whose filename
`testfile.js` does begin with `test` — is rejected, because the code
compares the prefix against the whole path, not the basename.  With filter
`*.JS`, the file `a.js` is rejected although the comparison is claimed to
be case-insensitive, because the code lowercases only the file name, never
the filter remainder. -/
theorem C4_counterexample_path_and_case :
    shouldIncludeFile ["test*".toList] "dir/testfile.js".toList = false
    ∧ "test".toList <+: pathBasename "dir/testfile.js".toList
    ∧ shouldIncludeFile ["*.JS".toList] "a.js".toList = false
    ∧ ".js".toList <:+ ("a.js".toList.map Char.toLower) := by
  refine ⟨by decide, by decide, by decide, by decide⟩

/-- C4 amended: with an empty filter list every file is accepted; with a
non-empty list a file is accepted iff some filter accepts it, where a
filter starting with `*` requires its (un-lowercased) remainder to be a
suffix of the lowercased full path, a filter ending with `*` requires its
remainder to be a prefix of the lowercased full path, and any other filter
must equal the path's extension, both lowercased. -/
theorem C4_shouldIncludeFile_characterisation (filters : List (List Char))
    (filePath : List Char) :
    shouldIncludeFile filters filePath = true ↔
      (filters = [] ∨ ∃ pat ∈ filters, filterAccepts pat filePath) := by
  have hbr : ∀ pat : List Char,
      ((if pat.head? == some '*' then
          pat.tail.isSuffixOf (filePath.map Char.toLower)
        else if pat.getLast? == some '*' then
          pat.dropLast.isPrefixOf (filePath.map Char.toLower)
        else (pathExtname filePath).map Char.toLower ==
          pat.map Char.toLower) = true) ↔ filterAccepts pat filePath := by
    intro pat
    unfold filterAccepts
    by_cases h1 : pat.head? = some '*'
    · rw [if_pos (by simp [h1]), if_pos h1]
      exact List.isSuffixOf_iff_suffix
    · rw [if_neg (by simp [h1]), if_neg h1]
      by_cases h2 : pat.getLast? = some '*'
      · rw [if_pos (by simp [h2]), if_pos h2]
        exact List.isPrefixOf_iff_prefix
      · rw [if_neg (by simp [h2]), if_neg h2]
        exact beq_iff_eq
  unfold shouldIncludeFile
  by_cases hf : filters = []
  · subst hf
    simp
  · rw [if_neg (by simpa [List.length_eq_zero] using hf)]
    simp only [List.any_eq_true]
    constructor
    · rintro ⟨pat, hmem, hpat⟩
      exact Or.inr ⟨pat, hmem, (hbr pat).mp hpat⟩
    · rintro (h | ⟨pat, hmem, hpat⟩)
      · exact absurd h hf
      · exact ⟨pat, hmem, (hbr pat).mpr hpat⟩

/-- Model of `shouldSkipDirectory(dirName)` from `src/search-recursively.js`
lines 106–115: exact name match, suffix match for a selector starting with
`*`, prefix match for a selector ending with `*`; no case folding. -/
def shouldSkipDirectory (excludeDirs : List (List Char))
    (dirName : List Char) : Bool :=
  excludeDirs.any fun excludeDir =>
    if excludeDir.head? == some '*' then
      excludeDir.tail.isSuffixOf dirName
    else if excludeDir.getLast? == some '*' then
      excludeDir.dropLast.isPrefixOf dirName
    else dirName == excludeDir

/-- `content.split('\n')` on a character list; the empty content yields one
empty line, as in JavaScript. -/
def splitNL : List Char → List (List Char)
  | [] => [[]]
  | c :: rest =>
    if c = '\n' then [] :: splitNL rest
    else
      match splitNL rest with
      | [] => [c] :: []
      | l :: ls => (c :: l) :: ls

/-- `String.prototype.trim` on a character list (whitespace at both ends
removed). -/
def jsTrim (l : List Char) : List Char :=
  ((l.dropWhile Char.isWhitespace).reverse.dropWhile Char.isWhitespace).reverse

/-- `path.join(a, b)` for the traversal's simple `dir + name` uses. -/
def pathJoin (a b : List Char) : List Char :=
  a ++ '/' :: b

/-- A verbose-gated log message, modelling `if (verbose) console.…`. -/
def emitLog (verbose : Bool) (m : List Char) : List (List Char) :=
  if verbose then [m] else []

/-- A filesystem tree for the traversal model.  `statOk` is whether
`fs.statSync` succeeds on the entry, `readOk` whether `fs.readFileSync`
(for files) or `fs.readdirSync` (for directories) succeeds. -/
inductive FSEntry where
  | file (name : List Char) (statOk readOk : Bool) (content : List Char)
  | dir (name : List Char) (statOk readOk : Bool) (entries : List FSEntry)

/-- Model of `searchInFile(filePath)` from `src/search-recursively.js`
lines 74–104: reject by file filter without reading; an unreadable file is
caught and logged only when verbose; otherwise split into lines, keep the
matching ones as trimmed content with 1-based numbers, and produce a
`FileResult` only when at least one line matched.  Returns the result list
together with the verbose diagnostics. -/
def searchInFile (p : SPattern) (includeFiles : List (List Char))
    (verbose : Bool) (filePath : List Char) (readOk : Bool)
    (content : List Char) : List FileResult × List (List Char) :=
  if !shouldIncludeFile includeFiles filePath then ([], [])
  else if !readOk then
    ([], emitLog verbose ("Error reading file ".toList ++ filePath))
  else
    let lines := splitNL content
    let matchingLines :=
      (lines.enum.filter fun il => matchesSearchCriteria p il.2).map
        fun il => MatchLine.mk (jsTrim il.2) (il.1 + 1)
    if matchingLines.length > 0 then ([⟨filePath, matchingLines⟩], [])
    else ([], [])

/-- Everything a traversal produces: the pushed `results`, the trace of
file paths passed to `searchInFile`, and the verbose log lines.  The trace
instruments the embedding so that "is ever scanned" claims are statable. -/
structure VisitOut where
  results : List FileResult
  scanned : List (List Char)
  logs : List (List Char)
  deriving Repr, DecidableEq

/-- Concatenation of traversal outputs in traversal order. -/
def VisitOut.append (a b : VisitOut) : VisitOut :=
  ⟨a.results ++ b.results, a.scanned ++ b.scanned, a.logs ++ b.logs⟩

mutual

/-- Model of the per-entry body of `traverseDirectory` from
`src/search-recursively.js` lines 121–139: stat the entry (a failure is
caught per entry and logged only when verbose); recurse into directories
unless `shouldSkipDirectory` holds; call `searchInFile` on files. -/
def visitEntry (p : SPattern) (excludeDirs includeFiles : List (List Char))
    (verbose : Bool) (curPath : List Char) : FSEntry → VisitOut
  | .file name statOk readOk content =>
    if statOk then
      let rl := searchInFile p includeFiles verbose (pathJoin curPath name)
        readOk content
      ⟨rl.1, [pathJoin curPath name], rl.2⟩
    else
      ⟨[], [], emitLog verbose
        ("Error processing ".toList ++ pathJoin curPath name)⟩
  | .dir name statOk readOk entries =>
    if statOk then
      if shouldSkipDirectory excludeDirs name then
        ⟨[], [], emitLog verbose
          ("Skipping excluded directory: ".toList ++ pathJoin curPath name)⟩
      else if readOk then
        visitEntries p excludeDirs includeFiles verbose
          (pathJoin curPath name) entries
      else
        ⟨[], [], emitLog verbose
          ("Error reading directory ".toList ++ pathJoin curPath name)⟩
    else
      ⟨[], [], emitLog verbose
        ("Error processing ".toList ++ pathJoin curPath name)⟩

/-- The `for (const item of items)` loop of `traverseDirectory`: entries in
order, outputs concatenated. -/
def visitEntries (p : SPattern) (excludeDirs includeFiles : List (List Char))
    (verbose : Bool) (curPath : List Char) : List FSEntry → VisitOut
  | [] => ⟨[], [], []⟩
  | e :: rest =>
    (visitEntry p excludeDirs includeFiles verbose curPath e).append
      (visitEntries p excludeDirs includeFiles verbose curPath rest)

end

/-- Model of `searchRecursively(dirPath, searchPattern, options)` from
`src/search-recursively.js` lines 18–150: the root directory is listed
directly (no stat, no exclusion check on the root itself); a failing
`readdirSync` on it is caught and logged only when verbose. -/
def searchRecursively (root : FSEntry) (p : SPattern)
    (excludeDirs includeFiles : List (List Char)) (verbose : Bool) :
    VisitOut :=
  match root with
  | .file name _ _ _ =>
    ⟨[], [], emitLog verbose ("Error reading directory ".toList ++ name)⟩
  | .dir name _ readOk entries =>
    if readOk then visitEntries p excludeDirs includeFiles verbose name entries
    else ⟨[], [], emitLog verbose ("Error reading directory ".toList ++ name)⟩

/-- The claim's directory-selector semantics: exact equality, or the name
ends with the remainder of a selector starting with `*`, or starts with
the remainder of a selector ending with `*`. -/
def dirSelectorMatches (sel dirName : List Char) : Prop :=
  if sel.head? = some '*' then sel.tail <:+ dirName
  else if sel.getLast? = some '*' then sel.dropLast <+: dirName
  else dirName = sel

instance (sel dirName : List Char) : Decidable (dirSelectorMatches sel dirName) := by
  unfold dirSelectorMatches
  infer_instance

/-- `shouldSkipDirectory` decides exactly the selector semantics above. -/
theorem shouldSkipDirectory_iff (excludeDirs : List (List Char))
    (dirName : List Char) :
    shouldSkipDirectory excludeDirs dirName = true ↔
      ∃ sel ∈ excludeDirs, dirSelectorMatches sel dirName := by
  unfold shouldSkipDirectory
  rw [List.any_eq_true]
  refine exists_congr fun sel => and_congr_right fun _ => ?_
  unfold dirSelectorMatches
  by_cases h1 : sel.head? = some '*'
  · rw [if_pos (by simp [h1]), if_pos h1]
    exact List.isSuffixOf_iff_suffix
  · rw [if_neg (by simp [h1]), if_neg h1]
    by_cases h2 : sel.getLast? = some '*'
    · rw [if_pos (by simp [h2]), if_pos h2]
      exact List.isPrefixOf_iff_prefix
    · rw [if_neg (by simp [h2]), if_neg h2]
      exact beq_iff_eq

/-- C5: a directory entry whose name exactly equals an `excludeDirNames`
entry, or ends with the remainder of an entry starting with `*`, or starts
with the remainder of an entry ending with `*`, is never descended into:
the walk produces no result from it and passes no file inside it to
`searchInFile` (its scan trace is empty). -/
theorem C5_excluded_dir_is_never_entered (p : SPattern)
    (excludeDirs includeFiles : List (List Char)) (verbose : Bool)
    (curPath name : List Char) (statOk readOk : Bool)
    (entries : List FSEntry)
    (h : ∃ sel ∈ excludeDirs, dirSelectorMatches sel name) :
    (visitEntry p excludeDirs includeFiles verbose curPath
        (.dir name statOk readOk entries)).scanned = []
    ∧ (visitEntry p excludeDirs includeFiles verbose curPath
        (.dir name statOk readOk entries)).results = [] := by
  have hskip : shouldSkipDirectory excludeDirs name = true :=
    (shouldSkipDirectory_iff excludeDirs name).mpr h
  unfold visitEntry
  by_cases hs : statOk
  · rw [if_pos hs, if_pos hskip]
    exact ⟨rfl, rfl⟩
  · rw [if_neg hs]
    exact ⟨rfl, rfl⟩

/-- Witness for C5 at the spec's own examples: a directory literally named
`node_modules` under the rule `node_modules`, holding a file whose content
would match, contributes neither a scanned file nor a result; likewise a
directory `mycache` under the rule `*cache`. -/
theorem C5_excluded_dir_is_never_entered_witness :
    ((visitEntry ⟨"a".toList, [], false, false⟩ ["node_modules".toList]
        [] false "root".toList
        (.dir "node_modules".toList true true
          [.file "f.js".toList true true "a".toList])).scanned = []
      ∧ (visitEntry ⟨"a".toList, [], false, false⟩ ["node_modules".toList]
        [] false "root".toList
        (.dir "node_modules".toList true true
          [.file "f.js".toList true true "a".toList])).results = [])
    ∧ ((visitEntry ⟨"a".toList, [], false, false⟩ ["*cache".toList]
        [] false "root".toList
        (.dir "mycache".toList true true
          [.file "f.js".toList true true "a".toList])).scanned = []
      ∧ (visitEntry ⟨"a".toList, [], false, false⟩ ["*cache".toList]
        [] false "root".toList
        (.dir "mycache".toList true true
          [.file "f.js".toList true true "a".toList])).results = []) := by
  constructor
  · exact C5_excluded_dir_is_never_entered _ _ _ _ _ _ _ _ _
      ⟨"node_modules".toList, by decide, by decide⟩
  · exact C5_excluded_dir_is_never_entered _ _ _ _ _ _ _ _ _
      ⟨"*cache".toList, by decide, by decide⟩

/-- The empty traversal output is a left unit for `VisitOut.append`. -/
theorem VisitOut.nil_append (b : VisitOut) :
    VisitOut.append ⟨[], [], []⟩ b = b := by
  cases b
  simp [VisitOut.append]

/-- The traversal of a concatenated entry list is the concatenation of the
traversals. -/
theorem visitEntries_append (p : SPattern)
    (ed incf : List (List Char)) (v : Bool) (cur : List Char)
    (xs ys : List FSEntry) :
    visitEntries p ed incf v cur (xs ++ ys) =
      (visitEntries p ed incf v cur xs).append
        (visitEntries p ed incf v cur ys) := by
  induction xs with
  | nil =>
    rw [List.nil_append]
    rw [show visitEntries p ed incf v cur [] = ⟨[], [], []⟩ from rfl]
    rw [VisitOut.nil_append]
  | cons e rest ih =>
    rw [List.cons_append]
    show (visitEntry p ed incf v cur e).append
        (visitEntries p ed incf v cur (rest ++ ys)) = _
    rw [ih]
    show _ = ((visitEntry p ed incf v cur e).append
        (visitEntries p ed incf v cur rest)).append
        (visitEntries p ed incf v cur ys)
    simp [VisitOut.append]

/-- A file whose read fails contributes no result. -/
theorem visitEntry_file_read_fails (p : SPattern)
    (ed incf : List (List Char)) (v : Bool) (cur name content : List Char)
    (s : Bool) :
    (visitEntry p ed incf v cur (.file name s false content)).results = [] := by
  unfold visitEntry
  by_cases hs : s
  · rw [if_pos hs]
    unfold searchInFile
    by_cases hf : shouldIncludeFile incf (pathJoin cur name)
    · rw [if_neg (by simp [hf]), if_pos (by simp)]
    · rw [if_pos (by simp [hf])]
  · rw [if_neg hs]

/-- An entry whose stat fails contributes no result (file case). -/
theorem visitEntry_file_stat_fails (p : SPattern)
    (ed incf : List (List Char)) (v : Bool) (cur name content : List Char)
    (r : Bool) :
    (visitEntry p ed incf v cur (.file name false r content)).results = [] := by
  unfold visitEntry
  rfl

/-- A directory whose listing fails contributes no result, whether or not
its stat succeeded or it was excluded. -/
theorem visitEntry_dir_read_fails (p : SPattern)
    (ed incf : List (List Char)) (v : Bool) (cur name : List Char)
    (s : Bool) (es : List FSEntry) :
    (visitEntry p ed incf v cur (.dir name s false es)).results = [] := by
  unfold visitEntry
  by_cases hs : s
  · rw [if_pos hs]
    by_cases hk : shouldSkipDirectory ed name
    · rw [if_pos hk]
    · rw [if_neg hk, if_neg (by simp)]
  · rw [if_neg hs]

/-- An entry whose stat fails contributes no result (directory case). -/
theorem visitEntry_dir_stat_fails (p : SPattern)
    (ed incf : List (List Char)) (v : Bool) (cur name : List Char)
    (r : Bool) (es : List FSEntry) :
    (visitEntry p ed incf v cur (.dir name false r es)).results = [] := by
  unfold visitEntry
  rfl

/-- C8: per-item I/O failures are recovered locally.  In a directory whose
entries are `pre ++ [bad] ++ post`, where `bad` is an unreadable file, a
file or directory whose stat fails, or a directory whose listing fails,
the failing item contributes no result and every sibling in `pre` and
`post` is still processed, so the run's results are exactly those of the
readable items; the traversal is a total function, so no failure aborts
the run, and the failures only surface in the verbose log channel. -/
theorem C8_local_error_recovery (p : SPattern)
    (ed incf : List (List Char)) (v : Bool) (cur name content : List Char)
    (s r : Bool) (es pre post : List FSEntry) :
    ((visitEntries p ed incf v cur
        (pre ++ .file name s false content :: post)).results
      = (visitEntries p ed incf v cur pre).results
        ++ (visitEntries p ed incf v cur post).results)
    ∧ ((visitEntries p ed incf v cur
        (pre ++ .file name false r content :: post)).results
      = (visitEntries p ed incf v cur pre).results
        ++ (visitEntries p ed incf v cur post).results)
    ∧ ((visitEntries p ed incf v cur
        (pre ++ .dir name s false es :: post)).results
      = (visitEntries p ed incf v cur pre).results
        ++ (visitEntries p ed incf v cur post).results)
    ∧ ((visitEntries p ed incf v cur
        (pre ++ .dir name false r es :: post)).results
      = (visitEntries p ed incf v cur pre).results
        ++ (visitEntries p ed incf v cur post).results) := by
  have hsplit : ∀ bad : FSEntry,
      (visitEntry p ed incf v cur bad).results = [] →
      (visitEntries p ed incf v cur (pre ++ bad :: post)).results
        = (visitEntries p ed incf v cur pre).results
          ++ (visitEntries p ed incf v cur post).results := by
    intro bad hbad
    rw [visitEntries_append]
    show (visitEntries p ed incf v cur pre).results
      ++ ((visitEntry p ed incf v cur bad).append
            (visitEntries p ed incf v cur post)).results = _
    rw [show ((visitEntry p ed incf v cur bad).append
          (visitEntries p ed incf v cur post)).results
        = (visitEntry p ed incf v cur bad).results
          ++ (visitEntries p ed incf v cur post).results from rfl, hbad]
    rw [List.nil_append]
  exact ⟨hsplit _ (visitEntry_file_read_fails p ed incf v cur name content s),
    hsplit _ (visitEntry_file_stat_fails p ed incf v cur name content r),
    hsplit _ (visitEntry_dir_read_fails p ed incf v cur name s es),
    hsplit _ (visitEntry_dir_stat_fails p ed incf v cur name r es)⟩

/-- The result component of `searchInFile` never depends on `verbose`. -/
theorem searchInFile_results_verbose (p : SPattern)
    (incf : List (List Char)) (b₁ b₂ : Bool) (path : List Char)
    (r : Bool) (content : List Char) :
    (searchInFile p incf b₁ path r content).1 =
      (searchInFile p incf b₂ path r content).1 := by
  unfold searchInFile
  cases hf : shouldIncludeFile incf path
  · simp [hf]
  · cases r
    · simp [hf]
    · simp [hf]

mutual

/-- The results and scan trace of a traversal never depend on `verbose`;
only the log channel does. -/
theorem visitEntry_obs_verbose (p : SPattern)
    (ed incf : List (List Char)) (b₁ b₂ : Bool) (cur : List Char) :
    ∀ e : FSEntry,
      (visitEntry p ed incf b₁ cur e).results =
          (visitEntry p ed incf b₂ cur e).results
      ∧ (visitEntry p ed incf b₁ cur e).scanned =
          (visitEntry p ed incf b₂ cur e).scanned
  | .file name s r content => by
    unfold visitEntry
    by_cases hs : s
    · rw [if_pos hs, if_pos hs]
      exact ⟨searchInFile_results_verbose p incf b₁ b₂
        (pathJoin cur name) r content, rfl⟩
    · rw [if_neg hs, if_neg hs]
      exact ⟨rfl, rfl⟩
  | .dir name s r entries => by
    unfold visitEntry
    by_cases hs : s
    · rw [if_pos hs, if_pos hs]
      by_cases hk : shouldSkipDirectory ed name
      · rw [if_pos hk, if_pos hk]
        exact ⟨rfl, rfl⟩
      · rw [if_neg hk, if_neg hk]
        by_cases hr : r
        · rw [if_pos hr, if_pos hr]
          exact visitEntries_obs_verbose p ed incf b₁ b₂
            (pathJoin cur name) entries
        · rw [if_neg hr, if_neg hr]
          exact ⟨rfl, rfl⟩
    · rw [if_neg hs, if_neg hs]
      exact ⟨rfl, rfl⟩

/-- List version of `visitEntry_obs_verbose`. -/
theorem visitEntries_obs_verbose (p : SPattern)
    (ed incf : List (List Char)) (b₁ b₂ : Bool) (cur : List Char) :
    ∀ es : List FSEntry,
      (visitEntries p ed incf b₁ cur es).results =
          (visitEntries p ed incf b₂ cur es).results
      ∧ (visitEntries p ed incf b₁ cur es).scanned =
          (visitEntries p ed incf b₂ cur es).scanned
  | [] => ⟨rfl, rfl⟩
  | e :: rest => by
    have h1 := visitEntry_obs_verbose p ed incf b₁ b₂ cur e
    have h2 := visitEntries_obs_verbose p ed incf b₁ b₂ cur rest
    show ((visitEntry p ed incf b₁ cur e).append
        (visitEntries p ed incf b₁ cur rest)).results = _
      ∧ ((visitEntry p ed incf b₁ cur e).append
        (visitEntries p ed incf b₁ cur rest)).scanned = _
    show (visitEntry p ed incf b₁ cur e).results
        ++ (visitEntries p ed incf b₁ cur rest).results
      = (visitEntry p ed incf b₂ cur e).results
        ++ (visitEntries p ed incf b₂ cur rest).results
      ∧ (visitEntry p ed incf b₁ cur e).scanned
        ++ (visitEntries p ed incf b₁ cur rest).scanned
      = (visitEntry p ed incf b₂ cur e).scanned
        ++ (visitEntries p ed incf b₂ cur rest).scanned
    rw [h1.1, h1.2, h2.1, h2.2]
    exact ⟨rfl, rfl⟩

end

/-- `searchRecursively`'s result list never depends on `verbose`. -/
theorem searchRecursively_results_verbose (root : FSEntry) (p : SPattern)
    (ed incf : List (List Char)) (b₁ b₂ : Bool) :
    (searchRecursively root p ed incf b₁).results =
      (searchRecursively root p ed incf b₂).results := by
  cases root with
  | file name s r content => rfl
  | dir name s r entries =>
    cases r
    · rfl
    · exact (visitEntries_obs_verbose p ed incf b₁ b₂ name entries).1

/-- Tokens of the regex fragment needed for the aggregator: a literal
character or the any-character class `.`. -/
inductive RTok where
  | lit (c : Char)
  | dot
  deriving Repr, DecidableEq

/-- The JS regex metacharacters other than `.` (the characters escaped by
`createSearchRegex`, minus the dot). -/
def jsRegexMeta : List Char :=
  ['*', '+', '?', '^', '$', '{', '}', '(', ')', '|', '[', ']', '\\']

/-- Read a raw phrase as a regex, within the modelled fragment: `.` becomes
the any-character token, other non-metacharacters match literally, and a
phrase containing one of `jsRegexMeta` falls outside the fragment. -/
def lexRegex : List Char → Option (List RTok)
  | [] => some []
  | c :: rest =>
    if c = '.' then (lexRegex rest).map fun ts => RTok.dot :: ts
    else if c ∈ jsRegexMeta then none
    else (lexRegex rest).map fun ts => RTok.lit c :: ts

/-- Does one token match one character?  The JS `.` matches everything but
a line terminator. -/
def rtokMatches : RTok → Char → Bool
  | .lit a, c => a == c
  | .dot, c =>
    !(c == '\n' || c == '\r' ||
      c == Char.ofNat 0x2028 || c == Char.ofNat 0x2029)

/-- Do the tokens match the first `ts.length` characters of `s`? -/
def tokensMatch : List RTok → List Char → Bool
  | [], _ => true
  | _ :: _, [] => false
  | t :: ts, c :: cs => rtokMatches t c && tokensMatch ts cs

/-- Model of `new RegExp(wholeWord ? \b+term+\b : term, flags).test(content)`
as built by `groupResultsByPattern` in `src/unnamed/part_000` lines 24–27 and
32–35: the raw phrase is NOT escaped, so it is read as a regex.  Phrases
outside the modelled fragment yield `false`; every aggregation theorem
below restricts itself to supported phrases. -/
def aggRegexTest (caseSensitive wholeWord : Bool)
    (term content : List Char) : Bool :=
  let t := foldCase caseSensitive term
  let l := foldCase caseSensitive content
  match lexRegex t with
  | none => false
  | some ts =>
    (List.range (l.length + 1)).any fun i =>
      tokensMatch ts (l.drop i) &&
        (!wholeWord || (boundaryAt l i && boundaryAt l (i + ts.length)))

/-- A phrase inside the modelled regex fragment. -/
def supportedPhrase (s : List Char) : Bool :=
  (lexRegex s).isSome

/-- A phrase free of all regex metacharacters, the dot included. -/
def plainPhrase (s : List Char) : Bool :=
  s.all fun c => !jsRegexMeta.contains c && c != '.'

/-- The `content` recomputed per `FileResult` by `groupResultsByPattern`
line 20: the matched line contents joined with newlines. -/
def contentOf (r : FileResult) : List Char :=
  List.intercalate ['\n'] (r.lines.map fun ml => ml.content)

/-- The aggregator's per-(result, pattern) verdict, `src/unnamed/part_000`
lines 24–39: the include regex must match the concatenated content and no
exclude regex (same flags) may match it. -/
def aggPatternPasses (p : SPattern) (content : List Char) : Bool :=
  aggRegexTest p.caseSensitive p.wholeWord p.incl content &&
    !(p.exclude.any fun e => aggRegexTest p.caseSensitive p.wholeWord e content)

/-- First-occurrence deduplication, the key order of a JS `Map` populated
by `set` in pattern order. -/
def dedupKeysFirst : List (List Char) → List (List Char)
  | [] => []
  | k :: rest => k :: (dedupKeysFirst rest).filter fun x => x != k

/-- The `Map` after the first loop of `groupResultsByPattern` (lines
14–17): one empty set per distinct include phrase, in pattern order. -/
def initGroups (ps : List SPattern) : List (List Char × List (List Char)) :=
  (dedupKeysFirst (ps.map fun p => p.incl)).map fun k => (k, [])

/-- `groupedResults.get(searchTerm).add(fileName)`: add the path to the
set of every entry keyed by the phrase (JS `Set` ignores duplicates). -/
def addFile (g : List (List Char × List (List Char))) (k v : List Char) :
    List (List Char × List (List Char)) :=
  g.map fun e =>
    if e.1 == k then (e.1, if e.2.contains v then e.2 else e.2 ++ [v]) else e

/-- The inner `patterns.forEach` of `groupResultsByPattern` (lines 22–43)
for one `FileResult`. -/
def processResult (ps : List SPattern)
    (g : List (List Char × List (List Char))) (r : FileResult) :
    List (List Char × List (List Char)) :=
  ps.foldl
    (fun g p =>
      if aggPatternPasses p (contentOf r) then addFile g p.incl r.fileName
      else g)
    g

/-- Model of `groupResultsByPattern(allResults, patterns)` from
`src/unnamed/part_000` lines 11–47, as an association list in `Map`
insertion order. -/
def groupResultsByPattern (allResults : List FileResult)
    (ps : List SPattern) : List (List Char × List (List Char)) :=
  allResults.foldl (processResult ps) (initGroups ps)

/-- The set stored under a key (first entry wins, as in `Map.get`; an
absent key reads as the empty set). -/
def lookupSet : List (List Char × List (List Char)) → List Char →
    List (List Char)
  | [], _ => []
  | e :: rest, k => if e.1 == k then e.2 else lookupSet rest k

/-- JavaScript's default string comparison: lexicographic by code unit,
with a prefix sorting before its extensions. -/
def lexLe : List Char → List Char → Bool
  | [], _ => true
  | _ :: _, [] => false
  | a :: as, b :: bs => if a = b then lexLe as bs else decide (a < b)

/-- Insert into a sorted list. -/
def insertSorted (x : List Char) : List (List Char) → List (List Char)
  | [] => [x]
  | y :: ys => if lexLe x y then x :: y :: ys else y :: insertSorted x ys

/-- `[...files].sort()`: the lexicographically sorted permutation. -/
def sortLex (l : List (List Char)) : List (List Char) :=
  l.foldr insertSorted []

/-- Model of `formatSimpleResults(groupedResults)` from
`src/unnamed/part_000` lines 54–66: per group the phrase line, the sorted
paths, one empty line; all joined with newlines. -/
def formatSimpleResults (g : List (List Char × List (List Char))) :
    List Char :=
  List.intercalate ['\n'] (g.flatMap fun e => e.1 :: (sortLex e.2 ++ [[]]))

/-- Model of `performSearch(config, timestamp)` from `src/unnamed/part_000`
lines 81–129, up to its two observable outputs: the path of the report file
and the report text written to it.  The double loop runs directory by
directory, pattern by pattern, concatenating the raw results. -/
def performSearch (directories : List FSEntry) (patterns : List SPattern)
    (fileTypes excludeDirs : List (List Char)) (folder fileName : List Char)
    (timestamp : Nat) (verbose : Bool) : List Char × List Char :=
  let allResults := directories.flatMap fun dir =>
    patterns.flatMap fun p =>
      (searchRecursively dir p excludeDirs fileTypes verbose).results
  let groupedResults := groupResultsByPattern allResults patterns
  let formattedResults := formatSimpleResults groupedResults
  let fullFileName :=
    fileName ++ '-' :: ((Nat.repr timestamp).toList ++ ".txt".toList)
  (pathJoin folder fullFileName, formattedResults)

/-- C10: with the filesystem fixed, the `verbose` flag does not influence
the observable outputs: `searchRecursively` returns the same result list,
and `performSearch` produces the same report path and report text; verbose
only changes the log channel. -/
theorem C10_verbose_noninterference (root : FSEntry) (p : SPattern)
    (ed incf : List (List Char)) (dirs : List FSEntry)
    (ps : List SPattern) (fileTypes excludeDirs : List (List Char))
    (folder fname : List Char) (ts : Nat) :
    (searchRecursively root p ed incf true).results =
      (searchRecursively root p ed incf false).results
    ∧ performSearch dirs ps fileTypes excludeDirs folder fname ts true =
      performSearch dirs ps fileTypes excludeDirs folder fname ts false := by
  refine ⟨searchRecursively_results_verbose root p ed incf true false, ?_⟩
  unfold performSearch
  have hsr : ∀ (d : FSEntry) (q : SPattern),
      (searchRecursively d q excludeDirs fileTypes true).results =
        (searchRecursively d q excludeDirs fileTypes false).results :=
    fun d q => searchRecursively_results_verbose d q excludeDirs fileTypes
      true false
  simp only [hsr]

/-- A plain phrase reads as the list of its literal tokens. -/
theorem lexRegex_plain (s : List Char) (h : plainPhrase s = true) :
    lexRegex s = some (s.map RTok.lit) := by
  induction s with
  | nil => rfl
  | cons c rest ih =>
    have hc : (!jsRegexMeta.contains c && c != '.') = true := by
      have := (List.all_eq_true.mp h) c (by simp)
      simpa using this
    have hrest : plainPhrase rest = true := by
      refine List.all_eq_true.mpr fun x hx => (List.all_eq_true.mp h) x (by simp [hx])
    rw [Bool.and_eq_true] at hc
    obtain ⟨hmeta, hdot⟩ := hc
    unfold lexRegex
    rw [if_neg (by simpa using hdot), if_neg (by simpa using hmeta)]
    rw [ih hrest]
    rfl

/-- Lowercasing never creates a regex metacharacter or a dot. -/
theorem plainChar_toLower (c : Char)
    (h : (!jsRegexMeta.contains c && c != '.') = true) :
    (!jsRegexMeta.contains c.toLower && c.toLower != '.') = true := by
  unfold Char.toLower
  by_cases hc : c.toNat ≥ 65 ∧ c.toNat ≤ 90
  · rw [if_pos hc]
    obtain ⟨h1, h2⟩ := hc
    set n := c.toNat with hn
    interval_cases n <;> decide
  · rw [if_neg hc]
    exact h

/-- Case folding preserves plainness. -/
theorem plainPhrase_foldCase (cs : Bool) (s : List Char)
    (h : plainPhrase s = true) :
    plainPhrase (foldCase cs s) = true := by
  cases cs
  · unfold foldCase
    rw [if_neg (by simp)]
    refine List.all_eq_true.mpr fun x hx => ?_
    rcases List.mem_map.mp hx with ⟨c, hc, rfl⟩
    exact plainChar_toLower c (by simpa using (List.all_eq_true.mp h) c hc)
  · simpa [foldCase] using h

/-- Literal tokens match a prefix exactly when the characters agree. -/
theorem tokensMatch_lit (p s : List Char) :
    tokensMatch (p.map RTok.lit) s = (s.take p.length == p) := by
  induction p generalizing s with
  | nil => simp [tokensMatch]
  | cons a as ih =>
    cases s with
    | nil => simp [tokensMatch]
    | cons b bs =>
      show (rtokMatches (RTok.lit a) b && tokensMatch (as.map RTok.lit) bs) = _
      rw [ih bs]
      show (a == b && (bs.take as.length == as)) = ((b :: bs.take as.length) == a :: as)
      rcases hab : a == b with _ | _
      · have : ¬ (b = a) := fun hba => by simp [hba] at hab
        simp [List.cons_eq_cons, this]
      · have hba : b = a := (beq_iff_eq.mp hab).symm
        subst hba
        simp [List.cons_eq_cons]

/-- `List.any` only depends on the values on members. -/
theorem list_any_congr {α : Type} (l : List α) (f g : α → Bool)
    (h : ∀ a ∈ l, f a = g a) : l.any f = l.any g := by
  induction l with
  | nil => rfl
  | cons a rest ih =>
    show (f a || rest.any f) = (g a || rest.any g)
    rw [h a (by simp), ih fun x hx => h x (by simp [hx])]

/-- On phrases free of regex metacharacters the aggregator's raw-regex
test coincides with the matcher's escaped-literal test. -/
theorem aggRegexTest_plain (cs ww : Bool) (pat line : List Char)
    (h : plainPhrase pat = true) :
    aggRegexTest cs ww pat line = createSearchRegexTest cs ww pat line := by
  have hlex := lexRegex_plain (foldCase cs pat) (plainPhrase_foldCase cs pat h)
  unfold aggRegexTest createSearchRegexTest
  simp only [hlex, List.length_map]
  refine congrArg _ (funext fun i => ?_)
  rw [tokensMatch_lit]
  rfl

/-- C2 counterexample: the aggregator does not escape regex
metacharacters.  For the phrase `a.c` and the text `abc`, the aggregator's
include test (`new RegExp('a.c', 'gi')`) succeeds — the unescaped dot
matches `b` — while the matcher's escaped test fails: the two tests
disagree, so the claimed equality is false. -/
theorem C2_counterexample_unescaped_metachar :
    aggRegexTest false false "a.c".toList "abc".toList = true
    ∧ createSearchRegexTest false false "a.c".toList "abc".toList = false := by
  exact ⟨by decide, by decide⟩

/-- C2 amended: the aggregator passes the raw phrase to `new RegExp`
without the matcher's escaping, so the two tests agree only on phrases
free of regex metacharacters (`.`, `*`, `(`, `\`, …).  For every such
plain phrase the aggregator's test equals the matcher's test with the same
whole-word and case flags, and consequently a whole pattern of plain
phrases gets the same include/exclude verdict on any concatenated text
from both components. -/
theorem C2_agg_matcher_agree_on_plain_phrases :
    (∀ (cs ww : Bool) (pat text : List Char), plainPhrase pat = true →
      aggRegexTest cs ww pat text = createSearchRegexTest cs ww pat text)
    ∧ (∀ (p : SPattern) (r : FileResult), plainPhrase p.incl = true →
        (∀ e ∈ p.exclude, plainPhrase e = true) →
        aggPatternPasses p (contentOf r) =
          matchesSearchCriteria p (contentOf r)) := by
  refine ⟨fun cs ww pat text hp => aggRegexTest_plain cs ww pat text hp,
    fun p r hinc hexc => ?_⟩
  unfold aggPatternPasses matchesSearchCriteria
  rw [aggRegexTest_plain p.caseSensitive p.wholeWord p.incl (contentOf r) hinc]
  rw [list_any_congr p.exclude _ _ fun e he =>
    aggRegexTest_plain p.caseSensitive p.wholeWord e (contentOf r) (hexc e he)]

/-- Witness for C2 at a concrete plain phrase. -/
theorem C2_agg_matcher_agree_witness :
    aggRegexTest false true "cat".toList "a cat!".toList =
      createSearchRegexTest false true "cat".toList "a cat!".toList :=
  C2_agg_matcher_agree_on_plain_phrases.1 false true "cat".toList
    "a cat!".toList (by decide)

/-- Membership in a JS-`Set`-style conditional append. -/
theorem mem_setAdd (s : List (List Char)) (v f : List Char) :
    (f ∈ if s.contains v then s else s ++ [v]) ↔ (f ∈ s ∨ f = v) := by
  by_cases hc : s.contains v
  · rw [if_pos hc]
    constructor
    · exact fun h => Or.inl h
    · rintro (h | rfl)
      · exact h
      · simpa using hc
  · rw [if_neg hc]
    simp

/-- `addFile` keeps the key list unchanged. -/
theorem addFile_keys (g : List (List Char × List (List Char)))
    (k v : List Char) :
    (addFile g k v).map Prod.fst = g.map Prod.fst := by
  induction g with
  | nil => rfl
  | cons e rest ih =>
    show (if e.1 == k then (e.1, _) else e).1 :: (addFile rest k v).map Prod.fst = _
    rw [ih]
    by_cases he : e.1 == k
    · rw [if_pos he]
      rfl
    · rw [if_neg he]
      rfl

/-- Membership in a set of the map after `addFile`. -/
theorem mem_lookupSet_addFile (g : List (List Char × List (List Char)))
    (k v k' f : List Char) :
    f ∈ lookupSet (addFile g k v) k' ↔
      (f ∈ lookupSet g k' ∨ (k' = k ∧ f = v ∧ k ∈ g.map Prod.fst)) := by
  induction g with
  | nil => simp [addFile, lookupSet]
  | cons e rest ih =>
    rw [List.map_cons]
    show f ∈ lookupSet ((if e.1 == k then
        (e.1, if e.2.contains v then e.2 else e.2 ++ [v]) else e)
        :: addFile rest k v) k' ↔ _
    by_cases hek : e.1 = k
    · rw [if_pos (by simpa using hek)]
      by_cases hek' : e.1 = k'
      · show f ∈ (if ((e.1, if e.2.contains v then e.2 else e.2 ++ [v]) :
            List Char × List (List Char)).1 == k' then
            (if e.2.contains v then e.2 else e.2 ++ [v])
          else lookupSet (addFile rest k v) k') ↔ _
        rw [if_pos (by simpa using hek')]
        rw [mem_setAdd]
        rw [show lookupSet (e :: rest) k' = e.2 from by
          show (if e.1 == k' then e.2 else lookupSet rest k') = e.2
          rw [if_pos (by simpa using hek')]]
        constructor
        · rintro (h | rfl)
          · exact Or.inl h
          · exact Or.inr ⟨by rw [← hek', hek], rfl,
              by rw [← hek]; exact List.mem_cons_self _ _⟩
        · rintro (h | ⟨_, rfl, _⟩)
          · exact Or.inl h
          · exact Or.inr rfl
      · show f ∈ (if ((e.1, if e.2.contains v then e.2 else e.2 ++ [v]) :
            List Char × List (List Char)).1 == k' then
            (if e.2.contains v then e.2 else e.2 ++ [v])
          else lookupSet (addFile rest k v) k') ↔ _
        rw [if_neg (by simpa using hek')]
        rw [ih]
        rw [show lookupSet (e :: rest) k' = lookupSet rest k' from by
          show (if e.1 == k' then e.2 else lookupSet rest k') = _
          rw [if_neg (by simpa using hek')]]
        constructor
        · rintro (h | ⟨hk, hv, hm⟩)
          · exact Or.inl h
          · exact Or.inr ⟨hk, hv, List.mem_cons_of_mem e.1 hm⟩
        · rintro (h | ⟨hk, hv, hm⟩)
          · exact Or.inl h
          · exact absurd (hek.trans hk.symm) hek'
    · rw [if_neg (by simpa using hek)]
      by_cases hek' : e.1 = k'
      · show f ∈ (if e.1 == k' then e.2
            else lookupSet (addFile rest k v) k') ↔ _
        rw [if_pos (by simpa using hek')]
        rw [show lookupSet (e :: rest) k' = e.2 from by
          show (if e.1 == k' then e.2 else lookupSet rest k') = e.2
          rw [if_pos (by simpa using hek')]]
        constructor
        · exact fun h => Or.inl h
        · rintro (h | ⟨hk, hv, hm⟩)
          · exact h
          · exact absurd (hek'.trans hk) hek
      · show f ∈ (if e.1 == k' then e.2
            else lookupSet (addFile rest k v) k') ↔ _
        rw [if_neg (by simpa using hek')]
        rw [ih]
        rw [show lookupSet (e :: rest) k' = lookupSet rest k' from by
          show (if e.1 == k' then e.2 else lookupSet rest k') = _
          rw [if_neg (by simpa using hek')]]
        constructor
        · rintro (h | ⟨hk, hv, hm⟩)
          · exact Or.inl h
          · exact Or.inr ⟨hk, hv, List.mem_cons_of_mem e.1 hm⟩
        · rintro (h | ⟨hk, hv, hm⟩)
          · exact Or.inl h
          · refine Or.inr ⟨hk, hv, ?_⟩
            rcases List.mem_cons.mp hm with h1 | h1
            · exact absurd h1.symm hek
            · exact h1

/-- `processResult` keeps the key list unchanged. -/
theorem processResult_keys (ps : List SPattern)
    (g : List (List Char × List (List Char))) (r : FileResult) :
    (processResult ps g r).map Prod.fst = g.map Prod.fst := by
  induction ps generalizing g with
  | nil => rfl
  | cons p ps ih =>
    show (processResult ps (if aggPatternPasses p (contentOf r) then
        addFile g p.incl r.fileName else g) r).map Prod.fst = _
    by_cases hp : aggPatternPasses p (contentOf r)
    · rw [if_pos hp, ih, addFile_keys]
    · rw [if_neg hp, ih]

/-- Membership in a set of the map after processing one `FileResult`:
either it was already there, or the file passes some pattern whose include
phrase is that key (and the key exists in the map). -/
theorem mem_lookupSet_processResult (ps : List SPattern)
    (g : List (List Char × List (List Char))) (r : FileResult)
    (k f : List Char) :
    f ∈ lookupSet (processResult ps g r) k ↔
      (f ∈ lookupSet g k ∨ (f = r.fileName ∧ k ∈ g.map Prod.fst ∧
        ∃ p ∈ ps, p.incl = k ∧ aggPatternPasses p (contentOf r) = true)) := by
  induction ps generalizing g with
  | nil => simp [processResult]
  | cons p ps ih =>
    show f ∈ lookupSet (processResult ps (if aggPatternPasses p (contentOf r)
        then addFile g p.incl r.fileName else g) r) k ↔ _
    by_cases hp : aggPatternPasses p (contentOf r)
    · rw [if_pos hp, ih, mem_lookupSet_addFile, addFile_keys]
      constructor
      · rintro ((h | ⟨hk, hf, hm⟩) | ⟨hf, hm, q, hq, hqk, hqp⟩)
        · exact Or.inl h
        · exact Or.inr ⟨hf, by rw [hk]; exact hm,
            p, List.mem_cons_self _ _, hk.symm, hp⟩
        · exact Or.inr ⟨hf, hm, q, List.mem_cons_of_mem _ hq, hqk, hqp⟩
      · rintro (h | ⟨hf, hm, q, hq, hqk, hqp⟩)
        · exact Or.inl (Or.inl h)
        · rcases List.mem_cons.mp hq with rfl | hq'
          · exact Or.inl (Or.inr ⟨hqk.symm, hf, by rw [hqk]; exact hm⟩)
          · exact Or.inr ⟨hf, hm, q, hq', hqk, hqp⟩
    · rw [if_neg hp, ih]
      constructor
      · rintro (h | ⟨hf, hm, q, hq, hqk, hqp⟩)
        · exact Or.inl h
        · exact Or.inr ⟨hf, hm, q, List.mem_cons_of_mem _ hq, hqk, hqp⟩
      · rintro (h | ⟨hf, hm, q, hq, hqk, hqp⟩)
        · exact Or.inl h
        · rcases List.mem_cons.mp hq with rfl | hq'
          · exact absurd hqp (by simpa using hp)
          · exact Or.inr ⟨hf, hm, q, hq', hqk, hqp⟩

/-- Membership in a set of the map after folding over all results. -/
theorem mem_lookupSet_foldl (ps : List SPattern) (rs : List FileResult)
    (g : List (List Char × List (List Char))) (k f : List Char) :
    f ∈ lookupSet (rs.foldl (processResult ps) g) k ↔
      (f ∈ lookupSet g k ∨ (k ∈ g.map Prod.fst ∧
        ∃ r ∈ rs, f = r.fileName ∧
          ∃ p ∈ ps, p.incl = k ∧ aggPatternPasses p (contentOf r) = true)) := by
  induction rs generalizing g with
  | nil => simp
  | cons r rs ih =>
    show f ∈ lookupSet (rs.foldl (processResult ps)
        (processResult ps g r)) k ↔ _
    rw [ih, mem_lookupSet_processResult, processResult_keys]
    constructor
    · rintro ((h | ⟨hf, hm, hex⟩) | ⟨hm, r', hr', hf, hex⟩)
      · exact Or.inl h
      · exact Or.inr ⟨hm, r, List.mem_cons_self _ _, hf, hex⟩
      · exact Or.inr ⟨hm, r', List.mem_cons_of_mem _ hr', hf, hex⟩
    · rintro (h | ⟨hm, r', hr', hf, hex⟩)
      · exact Or.inl (Or.inl h)
      · rcases List.mem_cons.mp hr' with rfl | hr''
        · exact Or.inl (Or.inr ⟨hf, hm, hex⟩)
        · exact Or.inr ⟨hm, r', hr'', hf, hex⟩

/-- Looking anything up in the all-empty initial map yields the empty set. -/
theorem lookupSet_map_empty (ks : List (List Char)) (k : List Char) :
    lookupSet (ks.map fun k => (k, [])) k = [] := by
  induction ks with
  | nil => rfl
  | cons a rest ih =>
    show (if a == k then [] else lookupSet (rest.map fun k => (k, [])) k) = []
    by_cases ha : a == k
    · rw [if_pos ha]
    · rw [if_neg ha, ih]

/-- The keys of the initial map are the deduplicated include phrases. -/
theorem initGroups_keys (ps : List SPattern) :
    (initGroups ps).map Prod.fst = dedupKeysFirst (ps.map fun p => p.incl) := by
  unfold initGroups
  rw [List.map_map]
  exact List.map_id _

/-- First-occurrence deduplication keeps exactly the members. -/
theorem mem_dedupKeysFirst (l : List (List Char)) (x : List Char) :
    x ∈ dedupKeysFirst l ↔ x ∈ l := by
  induction l with
  | nil => simp [dedupKeysFirst]
  | cons a rest ih =>
    show x ∈ a :: (dedupKeysFirst rest).filter (fun y => y != a) ↔ _
    rw [List.mem_cons, List.mem_cons]
    constructor
    · rintro (rfl | h)
      · exact Or.inl rfl
      · exact Or.inr (ih.mp (List.mem_of_mem_filter h))
    · rintro (rfl | h)
      · exact Or.inl rfl
      · by_cases hxa : x = a
        · exact Or.inl hxa
        · exact Or.inr (List.mem_filter.mpr ⟨ih.mpr h, by simpa using hxa⟩)

/-- C3 counterexample: with two patterns sharing the include phrase `cat`
(one excluding `dog`, one not), the map has a single `cat` entry shared by
both patterns.  The file `f`, whose matched text `cat dog` fails the first
pattern's tests, nevertheless appears in that entry, so "f is in P's set
iff some FileResult for f passes P's tests" is false for the first
pattern. -/
theorem C3_counterexample_duplicate_phrases :
    "f".toList ∈ lookupSet (groupResultsByPattern
        [⟨"f".toList, [⟨"cat dog".toList, 1⟩]⟩]
        [⟨"cat".toList, ["dog".toList], false, false⟩,
          ⟨"cat".toList, [], false, false⟩]) "cat".toList
    ∧ aggPatternPasses ⟨"cat".toList, ["dog".toList], false, false⟩
        (contentOf ⟨"f".toList, [⟨"cat dog".toList, 1⟩]⟩) = false := by
  exact ⟨by decide, by decide⟩

/-- C3 amended: provided the patterns' include phrases are pairwise
distinct (the grouped map is keyed by include phrase, so patterns sharing
a phrase share one set), a file path is in pattern `P`'s set iff some
`FileResult` for that path — from whichever scan pass — has a
newline-joined matched text passing `P`'s include test and none of its
exclude tests. -/
theorem C3_group_membership (rs : List FileResult) (ps : List SPattern)
    (hd : (ps.map fun p => p.incl).Nodup) (P : SPattern) (hP : P ∈ ps)
    (f : List Char) :
    f ∈ lookupSet (groupResultsByPattern rs ps) P.incl ↔
      ∃ r ∈ rs, r.fileName = f ∧
        aggPatternPasses P (contentOf r) = true := by
  unfold groupResultsByPattern
  rw [mem_lookupSet_foldl]
  rw [show lookupSet (initGroups ps) P.incl = [] from by
    unfold initGroups
    exact lookupSet_map_empty _ _]
  rw [initGroups_keys]
  constructor
  · rintro (h | ⟨_, r, hr, hf, q, hq, hqk, hqp⟩)
    · exact absurd h (List.not_mem_nil f)
    · have : q = P := List.inj_on_of_nodup_map hd hq hP hqk
      subst this
      exact ⟨r, hr, hf.symm, hqp⟩
  · rintro ⟨r, hr, hf, hp⟩
    refine Or.inr ⟨?_, r, hr, hf.symm, P, hP, rfl, hp⟩
    exact (mem_dedupKeysFirst _ _).mpr (List.mem_map.mpr ⟨P, hP, rfl⟩)

/-- Witness for C3: a file whose matched text satisfies pattern B's rules
appears in B's set although it was scanned under pattern A (aggregation is
independent of the discovering pass). -/
theorem C3_group_membership_witness :
    "x.js".toList ∈ lookupSet (groupResultsByPattern
        [⟨"x.js".toList, [⟨"alpha beta".toList, 3⟩]⟩]
        [⟨"alpha".toList, [], false, false⟩,
          ⟨"beta".toList, [], false, false⟩]) "beta".toList :=
  (C3_group_membership
      [⟨"x.js".toList, [⟨"alpha beta".toList, 3⟩]⟩]
      [⟨"alpha".toList, [], false, false⟩,
        ⟨"beta".toList, [], false, false⟩]
      (by decide) ⟨"beta".toList, [], false, false⟩ (by decide)
      "x.js".toList).mpr
    ⟨⟨"x.js".toList, [⟨"alpha beta".toList, 3⟩]⟩, by decide, by decide, by decide⟩

/-- The string order is total. -/
theorem lexLe_total (a b : List Char) : lexLe a b = true ∨ lexLe b a = true := by
  induction a generalizing b with
  | nil => exact Or.inl rfl
  | cons x xs ih =>
    cases b with
    | nil => exact Or.inr rfl
    | cons y ys =>
      by_cases hxy : x = y
      · subst hxy
        show (if x = x then lexLe xs ys else _) = true ∨
          (if x = x then lexLe ys xs else _) = true
        rw [if_pos rfl, if_pos rfl]
        exact ih ys
      · show (if x = y then _ else decide (x < y)) = true ∨
          (if y = x then _ else decide (y < x)) = true
        rw [if_neg hxy, if_neg (Ne.symm hxy)]
        rcases lt_trichotomy x y with h | h | h
        · exact Or.inl (decide_eq_true h)
        · exact absurd h hxy
        · exact Or.inr (decide_eq_true h)

/-- The string order is transitive. -/
theorem lexLe_trans (a b c : List Char) (h1 : lexLe a b = true)
    (h2 : lexLe b c = true) : lexLe a c = true := by
  induction a generalizing b c with
  | nil => rfl
  | cons x xs ih =>
    cases b with
    | nil => exact absurd h1 (by simp [lexLe])
    | cons y ys =>
      cases c with
      | nil => exact absurd h2 (by simp [lexLe])
      | cons z zs =>
        have e1 : lexLe (x :: xs) (y :: ys) =
            if x = y then lexLe xs ys else decide (x < y) := rfl
        have e2 : lexLe (y :: ys) (z :: zs) =
            if y = z then lexLe ys zs else decide (y < z) := rfl
        have e3 : lexLe (x :: xs) (z :: zs) =
            if x = z then lexLe xs zs else decide (x < z) := rfl
        rw [e1] at h1
        rw [e2] at h2
        rw [e3]
        by_cases hxy : x = y
        · rw [if_pos hxy] at h1
          by_cases hyz : y = z
          · rw [if_pos hyz] at h2
            rw [if_pos (hxy.trans hyz)]
            exact ih ys zs h1 h2
          · rw [if_neg hyz] at h2
            have hyltz : y < z := of_decide_eq_true h2
            have hxltz : x < z := hxy ▸ hyltz
            rw [if_neg (ne_of_lt hxltz)]
            exact decide_eq_true hxltz
        · rw [if_neg hxy] at h1
          have hxlty : x < y := of_decide_eq_true h1
          by_cases hyz : y = z
          · have hxltz : x < z := hyz ▸ hxlty
            rw [if_neg (ne_of_lt hxltz)]
            exact decide_eq_true hxltz
          · rw [if_neg hyz] at h2
            have hxltz : x < z := lt_trans hxlty (of_decide_eq_true h2)
            rw [if_neg (ne_of_lt hxltz)]
            exact decide_eq_true hxltz

/-- Membership after an ordered insertion. -/
theorem mem_insertSorted (x a : List Char) (l : List (List Char)) :
    a ∈ insertSorted x l ↔ (a = x ∨ a ∈ l) := by
  induction l with
  | nil => simp [insertSorted]
  | cons y ys ih =>
    show a ∈ (if lexLe x y then x :: y :: ys else y :: insertSorted x ys) ↔ _
    by_cases hxy : lexLe x y
    · rw [if_pos hxy]
      simp
    · rw [if_neg hxy]
      rw [List.mem_cons, ih, List.mem_cons]
      tauto

/-- Ordered insertion preserves sortedness. -/
theorem pairwise_insertSorted (x : List Char) (l : List (List Char))
    (h : l.Pairwise fun a b => lexLe a b = true) :
    (insertSorted x l).Pairwise fun a b => lexLe a b = true := by
  induction l with
  | nil => simp [insertSorted]
  | cons y ys ih =>
    show (if lexLe x y then x :: y :: ys else y :: insertSorted x ys).Pairwise _
    rcases List.pairwise_cons.mp h with ⟨hy, hys⟩
    by_cases hxy : lexLe x y
    · rw [if_pos hxy]
      refine List.Pairwise.cons ?_ h
      intro b hb
      rcases List.mem_cons.mp hb with rfl | hb'
      · exact hxy
      · exact lexLe_trans x y b hxy (hy b hb')
    · rw [if_neg hxy]
      refine List.Pairwise.cons ?_ (ih hys)
      intro b hb
      rcases (mem_insertSorted x b ys).mp hb with rfl | hb'
      · rcases lexLe_total b y with h' | h'
        · exact absurd h' hxy
        · exact h'
      · exact hy b hb'

/-- Ordered insertion is a permutation of consing. -/
theorem perm_insertSorted (x : List Char) (l : List (List Char)) :
    (insertSorted x l).Perm (x :: l) := by
  induction l with
  | nil => exact List.Perm.refl _
  | cons y ys ih =>
    show (if lexLe x y then x :: y :: ys else y :: insertSorted x ys).Perm _
    by_cases hxy : lexLe x y
    · rw [if_pos hxy]
    · rw [if_neg hxy]
      exact (List.Perm.cons y ih).trans (List.Perm.swap x y ys)

/-- `sortLex` sorts. -/
theorem sortLex_pairwise (l : List (List Char)) :
    (sortLex l).Pairwise fun a b => lexLe a b = true := by
  induction l with
  | nil => simp [sortLex]
  | cons a rest ih => exact pairwise_insertSorted a (sortLex rest) ih

/-- `sortLex` permutes. -/
theorem sortLex_perm (l : List (List Char)) : (sortLex l).Perm l := by
  induction l with
  | nil => exact List.Perm.refl _
  | cons a rest ih =>
    exact (perm_insertSorted a (sortLex rest)).trans (List.Perm.cons a ih)

/-- `flatMap` after `map` fuses. -/
theorem flatMap_after_map {α β γ : Type} (l : List α) (f : α → β)
    (h : β → List γ) :
    (l.map f).flatMap h = l.flatMap fun x => h (f x) := by
  induction l with
  | nil => rfl
  | cons a rest ih =>
    show h (f a) ++ (rest.map f).flatMap h = h (f a) ++ rest.flatMap fun x => h (f x)
    rw [ih]

/-- The keys of the grouped map are the deduplicated include phrases in
pattern order. -/
theorem groupResults_keys (rs : List FileResult) (ps : List SPattern) :
    (groupResultsByPattern rs ps).map Prod.fst =
      dedupKeysFirst (ps.map fun p => p.incl) := by
  unfold groupResultsByPattern
  have hfold : ∀ (rs : List FileResult) (g : List (List Char × List (List Char))),
      (rs.foldl (processResult ps) g).map Prod.fst = g.map Prod.fst := by
    intro rs
    induction rs with
    | nil => intro g; rfl
    | cons r rest ih =>
      intro g
      show (rest.foldl (processResult ps) (processResult ps g r)).map Prod.fst = _
      rw [ih, processResult_keys]
  rw [hfold, initGroups_keys]

/-- Deduplication does nothing on a duplicate-free list. -/
theorem dedupKeysFirst_of_nodup (l : List (List Char)) (h : l.Nodup) :
    dedupKeysFirst l = l := by
  induction l with
  | nil => rfl
  | cons a rest ih =>
    rcases List.nodup_cons.mp h with ⟨ha, hrest⟩
    show a :: (dedupKeysFirst rest).filter (fun y => y != a) = a :: rest
    rw [List.filter_eq_self.mpr fun b hb => by
      have : b ∈ rest := (mem_dedupKeysFirst rest b).mp hb
      have : ¬ b = a := fun hba => ha (hba ▸ this)
      simpa using this]
    rw [ih hrest]

/-- An association list with duplicate-free keys is recovered from its
keys and `lookupSet`. -/
theorem assoc_eq_keys_map (g : List (List Char × List (List Char)))
    (hd : (g.map Prod.fst).Nodup) :
    g = (g.map Prod.fst).map fun k => (k, lookupSet g k) := by
  induction g with
  | nil => rfl
  | cons e rest ih =>
    rcases List.nodup_cons.mp (show (e.1 :: rest.map Prod.fst).Nodup from hd)
      with ⟨hne, hd'⟩
    rw [List.map_cons, List.map_cons]
    have hhead : (e.1, lookupSet (e :: rest) e.1) = e := by
      rw [show lookupSet (e :: rest) e.1 = e.2 from by
        show (if e.1 == e.1 then e.2 else _) = e.2
        rw [if_pos (by simp)]]
    rw [hhead]
    have htail : ((rest.map Prod.fst).map fun k => (k, lookupSet (e :: rest) k))
        = (rest.map Prod.fst).map fun k => (k, lookupSet rest k) := by
      refine List.map_congr_left fun k hk => ?_
      have hkne : ¬ e.1 = k := fun he => hne (he ▸ hk)
      rw [show lookupSet (e :: rest) k = lookupSet rest k from by
        show (if e.1 == k then e.2 else _) = _
        rw [if_neg (by simpa using hkne)]]
    rw [htail, ← ih hd']

/-- Concrete data for the C7 example: one pattern, three matching files in
unsorted order (the spec's `['z.js','a.js','m.js']`). -/
def rsSortExample : List FileResult :=
  [⟨"z.js".toList, [⟨"p".toList, 1⟩]⟩,
    ⟨"a.js".toList, [⟨"p".toList, 1⟩]⟩,
    ⟨"m.js".toList, [⟨"p".toList, 1⟩]⟩]

/-- Concrete single-pattern list for the C7 example. -/
def psSortExample : List SPattern :=
  [⟨"p".toList, [], false, false⟩]

/-- Concrete duplicate-phrase pattern list for the C7 counterexample. -/
def psDupExample : List SPattern :=
  [⟨"a".toList, [], false, false⟩, ⟨"a".toList, [], false, false⟩]

/-- C7 counterexample: with two patterns that share the include phrase
`a`, the report contains a single `a` group, not one group per pattern in
input order, so the claimed shape fails. -/
theorem C7_counterexample_duplicate_phrases :
    formatSimpleResults (groupResultsByPattern [] psDupExample)
      ≠ List.intercalate ['\n'] (psDupExample.flatMap fun p =>
          p.incl ::
            (sortLex (lookupSet (groupResultsByPattern [] psDupExample)
              p.incl) ++ [[]])) := by
  decide

/-- C7 amended: provided the patterns' include phrases are pairwise
distinct, the report is, for each pattern in input order, the include
phrase line, then that pattern's file paths sorted ascending one per line,
then exactly one blank separator line; `sortLex` is a sorted permutation
of the group's set. -/
theorem C7_report_format (rs : List FileResult) (ps : List SPattern)
    (hd : (ps.map fun p => p.incl).Nodup) :
    formatSimpleResults (groupResultsByPattern rs ps) =
      List.intercalate ['\n'] (ps.flatMap fun p =>
        p.incl :: (sortLex (lookupSet (groupResultsByPattern rs ps) p.incl)
          ++ [[]]))
    ∧ ∀ s : List (List Char),
        ((sortLex s).Pairwise fun a b => lexLe a b = true)
        ∧ (sortLex s).Perm s := by
  refine ⟨?_, fun s => ⟨sortLex_pairwise s, sortLex_perm s⟩⟩
  have hkeys : (groupResultsByPattern rs ps).map Prod.fst
      = ps.map fun p => p.incl := by
    rw [groupResults_keys, dedupKeysFirst_of_nodup _ hd]
  have hgeq : groupResultsByPattern rs ps
      = (ps.map fun p => p.incl).map fun k =>
          (k, lookupSet (groupResultsByPattern rs ps) k) := by
    conv_lhs => rw [assoc_eq_keys_map (groupResultsByPattern rs ps)
      (by rw [hkeys]; exact hd)]
    rw [hkeys]
  conv_lhs => rw [hgeq]
  unfold formatSimpleResults
  rw [List.map_map, flatMap_after_map]
  rfl

/-- Witness for C7 at the spec's sorting example: the three files come out
as `a.js`, `m.js`, `z.js` under the `p` phrase line and one blank line. -/
theorem C7_report_format_witness :
    formatSimpleResults (groupResultsByPattern rsSortExample psSortExample) =
      List.intercalate ['\n'] (psSortExample.flatMap fun p =>
        p.incl ::
          (sortLex (lookupSet (groupResultsByPattern rsSortExample
            psSortExample) p.incl) ++ [[]]))
    ∧ formatSimpleResults (groupResultsByPattern rsSortExample psSortExample)
      = "p\na.js\nm.js\nz.js\n".toList := by
  exact ⟨(C7_report_format rsSortExample psSortExample (by decide)).1,
    by decide⟩
